import Mathlib

/-!
Verification development for the ferropress templating engine
(`src/bin/parser.rs`): a character-by-character finite-state-machine
parser building a document tree, and a renderer that re-serializes the
tree while substituting `\x7b\x7b name \x7d\x7d` placeholders from a context.

The Rust tree uses `Rc<RefCell<Node>>` with weak parent pointers and a
mutable cursor.  We embed it as a zipper: the node under construction
(`Frame`) plus the stack of its ancestors' frames.  Appending a child and
descending pushes the old current frame; resolving a closing tag pops it
and attaches the finished child at the end of the parent's child list,
exactly mirroring `add_child` / the `TagClose` arm of `parse_ch`.  The
cursor's depth in the tree is the length of the ancestor stack.

`inject_context` uses the regex `\x7b\x7b\s*(.+?)\s*\x7d\x7d` with
`replace_all`.  We model the regex engine's leftmost-first semantics
operationally: scan left to right; at each `\x7b\x7b`, greedily take the
whitespace run (backtracking downwards), then extend the lazy capture
one character at a time (`.` excludes a newline), then require `\s*\x7d\x7d`
(where only the full whitespace run can be followed by `\x7d\x7d`, since a
whitespace character is never `\x7d`).  The class `\s` is modelled in
full (Unicode `White_Space`, the regex crate's default); Rust's Unicode
`char::is_alphanumeric` is modelled by its ASCII fragment, which covers
every input exercised here.
-/

/-- The character `\x7b`. -/
def lbrace : Char := Char.ofNat 123

/-- The character `\x7d`. -/
def rbrace : Char := Char.ofNat 125

/-- The characters of the Unicode `White_Space` property: TAB through
CR, space, NEL, NBSP, OGHAM SPACE MARK, EN QUAD through HAIR SPACE,
LINE and PARAGRAPH SEPARATOR, NARROW NO-BREAK SPACE, MEDIUM
MATHEMATICAL SPACE and IDEOGRAPHIC SPACE. -/
def wsChars : List Char :=
  ['\t', '\n', '\x0b', '\x0c', '\r', ' ', '\x85', '\xa0', '\u1680',
   '\u2000', '\u2001', '\u2002', '\u2003', '\u2004', '\u2005', '\u2006',
   '\u2007', '\u2008', '\u2009', '\u200a', '\u2028', '\u2029', '\u202f',
   '\u205f', '\u3000']

/-- The regex class `\s`: the regex crate's default is Unicode, where
`\s` matches exactly the `White_Space` property. -/
def isWs (c : Char) : Bool := wsChars.contains c

/-- Flat substitution context, modelling `HashMap<String, String>`
(string keys, unique); only lookup is used. -/
def Context : Type := List (String × String)

/-- `ctx.get(key).unwrap_or(&default)` with `default = "CTX MISS"`. -/
def ctxGet (ctx : Context) (key : String) : String :=
  (List.lookup key ctx).getD "CTX MISS"

/-- Length of the maximal whitespace prefix (what a greedy `\s*` first
consumes). -/
def wsCount : List Char → Nat
  | [] => 0
  | c :: cs => if isWs c then wsCount cs + 1 else 0

/-- Match the trailing `\s*\x7d\x7d` of the placeholder regex: a greedy
whitespace run can only be followed by `\x7d\x7d` at its full extent,
because a whitespace character is never `\x7d`.  Returns the text after
the match. -/
def tailMatch (cs : List Char) : Option (List Char) :=
  match cs.dropWhile isWs with
  | c1 :: c2 :: rest => if c1 = rbrace then if c2 = rbrace then some rest else none else none
  | _ => none

/-- Extend the lazy capture `(.+?)`: `acc` holds the reversed capture so
far (non-empty); stop at the first position where `\s*\x7d\x7d` completes.
`.` does not match a newline.  On the empty remainder the close can never
match (`tailMatch [] = none`), so that arm returns `none` directly. -/
def grabCap : List Char → List Char → Option (List Char × List Char)
  | _, [] => none
  | acc, c :: cs' =>
    match tailMatch (c :: cs') with
    | some rest => some (acc.reverse, rest)
    | none => if c = '\n' then none else grabCap (c :: acc) cs'

/-- Match `(.+?)\s*\x7d\x7d` (capture is at least one non-newline
character). -/
def matchAfterW (cs : List Char) : Option (List Char × List Char) :=
  match cs with
  | [] => none
  | c :: cs' => if c = '\n' then none else grabCap [c] cs'

/-- Backtrack the leading greedy `\s*` downwards from `w` skipped
characters. -/
def tryW : Nat → List Char → Option (List Char × List Char)
  | 0, t => matchAfterW t
  | w + 1, t =>
    match matchAfterW (t.drop (w + 1)) with
    | some r => some r
    | none => tryW w t

/-- Match `\s*(.+?)\s*\x7d\x7d` against `t` (the text following `\x7b\x7b`),
returning the capture and the remaining text. -/
def tryMatch (t : List Char) : Option (List Char × List Char) :=
  tryW (wsCount t) t

/-- One left-to-right `replace_all` pass.  The fuel argument only serves
termination: each step consumes at least one character, so any fuel
exceeding the list length never runs out. -/
def injectAux (ctx : Context) : Nat → List Char → List Char
  | 0, _ => []
  | _ + 1, [] => []
  | fuel + 1, c :: cs =>
    if c = lbrace then
      match cs with
      | [] => [c]
      | c2 :: t =>
        if c2 = lbrace then
          match tryMatch t with
          | some (cap, rest) => (ctxGet ctx (String.mk cap)).data ++ injectAux ctx fuel rest
          | none => c :: injectAux ctx fuel cs
        else c :: injectAux ctx fuel cs
    else c :: injectAux ctx fuel cs

/-- `inject_context(target_str, ctx)`: replace every
`\x7b\x7b\s*(.+?)\s*\x7d\x7d` placeholder by the context value of the
captured name, or `CTX MISS` when the key is absent. -/
def inject_context (target_str : String) (ctx : Context) : String :=
  String.mk (injectAux ctx (target_str.data.length + 1) target_str.data)

/-- Text in which the scanner can never start a placeholder match: no two
adjacent `\x7b` characters anywhere.  (`replace_all` passes such text
through unchanged, stray single braces included.) -/
def NoPhScan : List Char → Bool
  | c :: d :: rest => if c = lbrace ∧ d = lbrace then false else NoPhScan (d :: rest)
  | _ => true

mutual
/-- A node of the document tree (`struct Node`): optional tag name,
optional raw attribute text, optional text content, ordered children.
The `parent` weak pointer of the Rust struct is represented by the
zipper below, not stored in the node. -/
inductive Node where
  | mk (tag : Option String) (attrs : Option String) (content : Option String)
       (children : NodeList)

/-- The child list of a node, kept as a mutual inductive so that the
renderer recursion is structural. -/
inductive NodeList where
  | nil
  | cons (head : Node) (tail : NodeList)
end

/-- Append a node at the end of a child list (`self.children.push`). -/
def NodeList.snoc : NodeList → Node → NodeList
  | NodeList.nil, n => NodeList.cons n NodeList.nil
  | NodeList.cons h t, n => NodeList.cons h (t.snoc n)

/-- Lexer states (`enum State`). -/
inductive State where
  | Attr
  | Content
  | Comment
  | Blank
  | Tag
  | TagOpen
  | TagClose
deriving DecidableEq

/-- A node under construction: its fields plus the children completed so
far (in document order). -/
structure Frame where
  tag : Option String
  attrs : Option String
  content : Option String
  children : NodeList

/-- Read a finished frame back as a node. -/
def Frame.toNode (f : Frame) : Node :=
  Node.mk f.tag f.attrs f.content f.children

/-- Attach a finished child frame at the end of a parent frame's child
list (what the Rust tree already holds through `add_child`'s immediate
`children.push`; the zipper materializes it when the cursor moves up). -/
def Frame.attach (parent : Frame) (child : Frame) : Frame :=
  { parent with children := parent.children.snoc child.toNode }

/-- `struct Parser`: lexer state, the three accumulation buffers, and
the cursor as a zipper (`cur` = current node, `ancestors` = frames from
the current node's parent up to the root).  The Rust `root` field is
recovered by `Parser.finish`. -/
structure Parser where
  state : State
  buf : String
  comment_buf : String
  attr_buf : String
  cur : Frame
  ancestors : List Frame

/-- `Parser::new()`: fresh root (no tag/attrs/content/children), cursor
at the root, state `Blank`, empty buffers. -/
def Parser.new : Parser :=
  { state := State.Blank, buf := "", comment_buf := "", attr_buf := "",
    cur := { tag := none, attrs := none, content := none, children := NodeList.nil },
    ancestors := [] }

/-- `str::contains(char)` on the exclusion set of `is_content`. -/
def str_contains (s : String) (c : Char) : Bool :=
  s.data.contains c

/-- `str::ends_with` for the suffix tests `ends_with("--")` and
`ends_with('\\')`. -/
def str_ends_with (s : String) (suffix : String) : Bool :=
  List.isSuffixOf suffix.data s.data

/-- `Parser::is_content`: everything except `< > \n \t \r \ \x7b \x7d `
and space. -/
def is_content (ch : Char) : Bool :=
  !(str_contains "<>\n\t\r\\\x7b\x7d " ch)

/-- ASCII fragment of Rust's Unicode `char::is_alphanumeric`. -/
def is_alphanumeric (ch : Char) : Bool :=
  ch.isAlphanum

/-- `Parser::add_child_to_current_node`: create a child with the given
tag and attrs under the current node and make it the current node. -/
def Parser.add_child_to_current_node (p : Parser) (tag : Option String)
    (attrs : Option String) : Parser :=
  { p with ancestors := p.cur :: p.ancestors,
           cur := { tag := tag, attrs := attrs, content := none, children := NodeList.nil } }

/-- The epilogue of the `TagOpen | Attr` + `>` arm: return to `Blank`
and clear both buffers. -/
def Parser.setBlankClear (p : Parser) : Parser :=
  { p with state := State.Blank, buf := "", attr_buf := "" }

/-- `Parser::parse_ch`: one step of the finite-state machine.  Each arm
mirrors the corresponding arm of the Rust `match (&self.state, ch)`,
including the catch-all no-op. -/
def Parser.parse_ch (p : Parser) (ch : Char) : Parser :=
  match p.state with
  | State.Blank =>
    if ch = '<' then { p with state := State.Tag, buf := "" }
    else if is_content ch then { p with state := State.Content, buf := p.buf.push ch }
    else p
  | State.Tag =>
    if ch = '/' then { p with state := State.TagClose }
    else if ch = '!' then { p with state := State.Comment }
    else if is_alphanumeric ch then { p with state := State.TagOpen, buf := p.buf.push ch }
    else p
  | State.Comment =>
    if ch = '>' then
      if str_ends_with p.comment_buf "--" then
        { p with comment_buf := "", state := State.Blank }
      else p
    else { p with comment_buf := p.comment_buf.push ch }
  | State.TagClose =>
    if ch = '>' then
      match p.ancestors with
      | [] => { p with state := State.Blank }
      | parent :: rest =>
        { p with state := State.Blank, cur := parent.attach p.cur, ancestors := rest }
    else p
  | State.TagOpen =>
    if ch = ' ' then { p with state := State.Attr }
    else if ch = '>' then
      (p.add_child_to_current_node (some p.buf)
        (if p.attr_buf ≠ "" then some p.attr_buf else none)).setBlankClear
    else if is_alphanumeric ch then { p with buf := p.buf.push ch }
    else p
  | State.Attr =>
    if ch = '>' then
      (p.add_child_to_current_node (some p.buf)
        (if p.attr_buf ≠ "" then some p.attr_buf else none)).setBlankClear
    else { p with attr_buf := p.attr_buf.push ch }
  | State.Content =>
    if ch = '<' then
      if str_ends_with p.buf "\\" then p
      else { p with cur := { p.cur with content := some p.buf },
                    buf := "", state := State.TagClose }
    else { p with buf := p.buf.push ch }

/-- Two spaces per indentation level: `(0..depth).map(|_| "  ")`, which
is empty for a negative depth. -/
def indentOf (depth : Int) : String :=
  String.mk (List.replicate (2 * depth.toNat) ' ')

mutual
/-- `Node::to_html(html, depth, ctx)`: depth-first rendering.  If the
node has a tag, emit the indented opening tag (attributes substituted
through `inject_context`); if it has content, emit the substituted
content and suppress the closing tag's indentation, otherwise emit a
newline; recurse into the children at `depth + 1`; then, if the node has
a tag, emit the closing tag and a newline. -/
def Node.to_html : Node → String → Int → Context → String
  | Node.mk tag attrs content children, html0, depth, ctx =>
    let indentation := indentOf depth
    let attrs_str : String := match attrs with
      | some a => String.mk (' ' :: (inject_context a ctx).data)
      | none => ""
    let html1 := match tag with
      | some t => html0 ++ indentation ++ "<" ++ t ++ attrs_str ++ ">"
      | none => html0
    let step2 : String × String := match content with
      | some c => (html1 ++ inject_context c ctx, "")
      | none => (html1.push '\n', indentation)
    let html2 := NodeList.renderAll children step2.1 (depth + 1) ctx
    match tag with
    | some t => html2 ++ step2.2 ++ "</" ++ t ++ ">" ++ "\n"
    | none => html2

/-- The `for child in self.children` loop of `Node::to_html`. -/
def NodeList.renderAll : NodeList → String → Int → Context → String
  | NodeList.nil, html, _, _ => html
  | NodeList.cons n rest, html, depth, ctx =>
    NodeList.renderAll rest (Node.to_html n html depth ctx) depth ctx
end

/-- The character loop of `parse_file`: feed every character to
`parse_ch` in order. -/
def parseChars (cs : List Char) (p : Parser) : Parser :=
  cs.foldl Parser.parse_ch p

/-- Reattach the unfinished frames from the cursor up to the root.  In
Rust every child is already attached inside its parent when created, so
this merely reads the `root` field back out of the zipper. -/
def finishAux : Frame → List Frame → Node
  | f, [] => f.toNode
  | f, a :: rest => finishAux (a.attach f) rest

/-- The tree held by `self.root`. -/
def Parser.finish (p : Parser) : Node := finishAux p.cur p.ancestors

/-- `Parser::to_html`: render the root with empty output and depth -1. -/
def Parser.to_html (p : Parser) (ctx : Context) : String :=
  Node.to_html p.finish "" (-1) ctx

/-- Depth of the cursor (current node) in the tree: the number of
ancestors above it. -/
def Parser.depth (p : Parser) : Nat := p.ancestors.length

/-- The optional ` attrs` segment of an opening tag's serialization. -/
def attrPart : Option (List Char) → List Char
  | none => []
  | some a => ' ' :: a

/-- Serialization of an opening tag: `<tag>` or `<tag attrs>`. -/
def openChars (tag : List Char) (attrs : Option (List Char)) : List Char :=
  '<' :: (tag ++ attrPart attrs ++ ['>'])

/-- Serialization of a closing tag `</nm>`. -/
def closeChars (nm : List Char) : List Char :=
  '<' :: '/' :: (nm ++ ['>'])

/-- The attribute option the parser stores for a given serialized
attribute segment. -/
def attrsToOpt : Option (List Char) → Option String
  | none => none
  | some a => some (String.mk a)

/-- A usable tag name: non-empty and alphanumeric, so the lexer stays in
`TagOpen` while reading it. -/
def TagOk (tag : List Char) : Prop :=
  tag ≠ [] ∧ ∀ c ∈ tag, is_alphanumeric c = true

/-- Usable attribute text: non-empty (so the parser stores `Some`) and
free of `>` (which would close the tag early). -/
def AttrsOk : Option (List Char) → Prop
  | none => True
  | some a => a ≠ [] ∧ ∀ c ∈ a, c ≠ '>'

/-- A closing-tag name: any characters other than `>` — the parser never
validates it. -/
def NmOk (nm : List Char) : Prop := ∀ c ∈ nm, c ≠ '>'

/-- Usable element text: non-empty, starting with a content character
(so `Blank` enters `Content`), free of `<`, and not ending in a
backslash (so the closing tag's `<` commits it). -/
def TxtOk (txt : List Char) : Prop :=
  txt ≠ [] ∧ is_content (txt.headD 'x') = true ∧ (∀ c ∈ txt, c ≠ '<')
    ∧ txt.getLastD 'x' ≠ '\\'

/-- The template grammar of the spec, as a judgement on character
strings: a well-formed forest is a sequence of elements, each an opening
tag followed by either pure text or a nested well-formed forest, closed
by a `</...>` group (closing names unvalidated).  Text-bearing elements
have no child elements — the grammar the state machine expects, since a
content commit always enters `TagClose`. -/
inductive Wf : List Char → Prop where
  | nilW : Wf []
  | textElem (tag : List Char) (attrs : Option (List Char)) (nm txt rest : List Char) :
      TagOk tag → AttrsOk attrs → NmOk nm → TxtOk txt → Wf rest →
      Wf (openChars tag attrs ++ txt ++ closeChars nm ++ rest)
  | nodeElem (tag : List Char) (attrs : Option (List Char)) (nm inner rest : List Char) :
      TagOk tag → AttrsOk attrs → NmOk nm → Wf inner → Wf rest →
      Wf (openChars tag attrs ++ inner ++ closeChars nm ++ rest)


/-- C1 (counterexample): parsing `<a><b>hi</b></a>` and rendering with an
empty context does NOT yield exactly `<a>\n  <b>hi</b>\n</a>\n`: the
synthetic root has no content, so the `else` branch of the content check
in `Node::to_html` pushes a newline for the root itself, and the output
carries a leading `\n`. -/
theorem c1_counterexample :
    (parseChars "<a><b>hi</b></a>".data Parser.new).to_html [] ≠
      "<a>\n  <b>hi</b>\n</a>\n" := by
  decide

/-- C1 (amended): parsing `<a><b>hi</b></a>` and rendering with an empty
context yields exactly `\n<a>\n  <b>hi</b>\n</a>\n`; the synthetic root
emits no tag, but its contentless branch contributes exactly one leading
newline, and everything else comes from its children. -/
theorem c1_amended :
    (parseChars "<a><b>hi</b></a>".data Parser.new).to_html [] =
      "\n<a>\n  <b>hi</b>\n</a>\n" := by
  rfl

/-- C2 (counterexample): parsing `<p>\x7b\x7b variable \x7d\x7d</p>` and
rendering with the context mapping `variable` to `1234` does NOT yield
`<p>1234</p>`: in the `Blank` state `\x7b` and space are not content
characters (`is_content` excludes them), so the leading `\x7b\x7b ` of the
placeholder is silently dropped before the `Content` state begins. -/
theorem c2_counterexample :
    (parseChars ("<p>".data ++ [lbrace, lbrace] ++ " variable ".data
        ++ [rbrace, rbrace] ++ "</p>".data) Parser.new).to_html
      [("variable", "1234")] ≠ "<p>1234</p>" := by
  decide

/-- C2 (amended): on input `<p>\x7b\x7b variable \x7d\x7d</p>` the `Blank`
state discards the leading `\x7b\x7b ` (not content characters), the node's
content becomes `variable \x7d\x7d`, which contains no placeholder, so no
substitution happens and rendering with the context mapping `variable` to
`1234` yields `\n<p>variable \x7d\x7d</p>\n` (with the root's leading
newline). -/
theorem c2_amended :
    (parseChars ("<p>".data ++ [lbrace, lbrace] ++ " variable ".data
        ++ [rbrace, rbrace] ++ "</p>".data) Parser.new).to_html
      [("variable", "1234")] =
      String.mk ("\n<p>variable ".data ++ [rbrace, rbrace] ++ "</p>\n".data) := by
  rfl

/-- C4: parsing is total by construction (`parse_ch` is a total function
and `parseChars` folds it over the input, so every input runs to
completion); in particular a `>` in `TagClose` state with the cursor at
the root (no parent to resolve) leaves the whole parser unchanged except
for returning to `Blank`, and feeding the bare closer `</a>` to a fresh
parser returns it to its initial state, cursor still at the root. -/
theorem c4_bare_closer_at_root :
    (∀ p : Parser, p.state = State.TagClose → p.ancestors = [] →
      p.parse_ch '>' = { p with state := State.Blank })
    ∧ parseChars "</a>".data Parser.new = Parser.new := by
  constructor
  · intro p h1 h2
    simp [Parser.parse_ch, h1, h2]
  · rfl

/-- C4 witness: the general no-parent case evaluated on a fresh parser
put in `TagClose` state. -/
theorem c4_bare_closer_at_root_witness :
    ({ Parser.new with state := State.TagClose } : Parser).state = State.TagClose
    ∧ ({ Parser.new with state := State.TagClose } : Parser).ancestors = []
    ∧ ({ Parser.new with state := State.TagClose } : Parser).parse_ch '>' =
        { { Parser.new with state := State.TagClose } with state := State.Blank } :=
  ⟨rfl, rfl, c4_bare_closer_at_root.1 _ rfl rfl⟩

/-- C5: in the `Comment` state a `>` closes the comment (clearing the
comment buffer, returning to `Blank`) exactly when the comment buffer
ends with `--`; a `>` without that suffix changes nothing; every other
character is appended to the comment buffer; no arm touches the tree, and
the full comment `<!-- a > b -- comment -->` brings a fresh parser back
to its initial state (no node created), skipping through the first `>`
preceded by `--`. -/
theorem c5_comment_state :
    (∀ p : Parser, p.state = State.Comment →
      (str_ends_with p.comment_buf "--" = true →
        p.parse_ch '>' = { p with comment_buf := "", state := State.Blank })
      ∧ (str_ends_with p.comment_buf "--" = false → p.parse_ch '>' = p)
      ∧ (∀ ch : Char, ch ≠ '>' →
          p.parse_ch ch = { p with comment_buf := p.comment_buf.push ch }))
    ∧ parseChars "<!-- a > b -- comment -->".data Parser.new = Parser.new := by
  refine ⟨fun p h => ⟨?_, ?_, ?_⟩, by rfl⟩
  · intro hend
    simp [Parser.parse_ch, h, hend]
  · intro hend
    simp [Parser.parse_ch, h, hend]
  · intro ch hch
    simp [Parser.parse_ch, h, hch]

/-- C5 witness: the closing case evaluated on a parser in `Comment` state
whose buffer ends with `--`. -/
theorem c5_comment_state_witness :
    ({ Parser.new with state := State.Comment, comment_buf := "ab--" } : Parser).state
        = State.Comment
    ∧ str_ends_with "ab--" "--" = true
    ∧ ({ Parser.new with state := State.Comment, comment_buf := "ab--" } : Parser).parse_ch '>'
        = { { Parser.new with state := State.Comment, comment_buf := "ab--" } with
              comment_buf := "", state := State.Blank } :=
  ⟨rfl, by decide, (c5_comment_state.1 _ rfl).1 (by decide)⟩

/-- C6: in the `Content` state, reading `<` with a buffer that does not
end in a backslash commits the buffer as the current node's content,
clears the buffer and moves to `TagClose`; with a buffer ending in a
backslash the parser is left entirely unchanged, so the `<` is dropped
and no literal `<` enters the buffer. -/
theorem c6_content_lt :
    ∀ p : Parser, p.state = State.Content →
      (str_ends_with p.buf "\\" = false →
        p.parse_ch '<' = { p with cur := { p.cur with content := some p.buf },
                                  buf := "", state := State.TagClose })
      ∧ (str_ends_with p.buf "\\" = true → p.parse_ch '<' = p) := by
  intro p h
  constructor
  · intro hesc
    simp [Parser.parse_ch, h, hesc]
  · intro hesc
    simp [Parser.parse_ch, h, hesc]

/-- C6 witness: the commit case on a buffer `hi` and the escape case on a
buffer `hi\`. -/
theorem c6_content_lt_witness :
    ({ Parser.new with state := State.Content, buf := "hi" } : Parser).state = State.Content
    ∧ str_ends_with "hi" "\\" = false
    ∧ ({ Parser.new with state := State.Content, buf := "hi" } : Parser).parse_ch '<'
        = { { Parser.new with state := State.Content, buf := "hi" } with
              cur := { ({ Parser.new with state := State.Content, buf := "hi" } : Parser).cur
                          with content := some "hi" },
              buf := "", state := State.TagClose } :=
  ⟨rfl, by decide, (c6_content_lt _ rfl).1 (by decide)⟩

/-- C8: rendering is deterministic and side-effect-free.  `Node::to_html`
takes `&self` and `&Context` and performs only immutable borrows, so its
embedding is a pure function: equal trees and equal contexts render to
byte-identical output, however many times it is invoked, and the tree and
context values themselves are untouched by construction. -/
theorem c8_render_deterministic :
    ∀ (t1 t2 : Node) (c1 c2 : Context), t1 = t2 → c1 = c2 →
      Node.to_html t1 "" (-1) c1 = Node.to_html t2 "" (-1) c2 := by
  intro t1 t2 c1 c2 h1 h2
  rw [h1, h2]

/-- C8 witness: two renders of the same concrete tree and context. -/
theorem c8_render_deterministic_witness :
    (Node.mk (some "a") none (some "x") NodeList.nil = Node.mk (some "a") none (some "x") NodeList.nil)
    ∧ Node.to_html (Node.mk (some "a") none (some "x") NodeList.nil) "" (-1) [("k", "v")]
        = Node.to_html (Node.mk (some "a") none (some "x") NodeList.nil) "" (-1) [("k", "v")] :=
  ⟨rfl, c8_render_deterministic _ _ _ _ rfl rfl⟩

/-- C9: in the `Content` state any character other than `<` only extends
the text buffer (tree, cursor and state untouched, so nothing is
committed); the tree read out of the parser ignores the text buffer
entirely; hence input ending while in `Content` discards the buffered
text: `<a>hi` renders to `\n<a>\n</a>\n` with no trace of `hi`. -/
theorem c9_trailing_content_discarded :
    (∀ (p : Parser) (ch : Char), p.state = State.Content → ch ≠ '<' →
      p.parse_ch ch = { p with buf := p.buf.push ch })
    ∧ (∀ (p : Parser) (b : String), Parser.finish { p with buf := b } = Parser.finish p)
    ∧ (parseChars "<a>hi".data Parser.new).to_html [] = "\n<a>\n</a>\n" := by
  refine ⟨?_, fun p b => rfl, by rfl⟩
  intro p ch h hch
  simp [Parser.parse_ch, h, hch]

/-- C9 witness: the accumulate case evaluated on a parser in `Content`
state reading `i`. -/
theorem c9_trailing_content_discarded_witness :
    ({ Parser.new with state := State.Content, buf := "h" } : Parser).state = State.Content
    ∧ ('i' : Char) ≠ '<'
    ∧ ({ Parser.new with state := State.Content, buf := "h" } : Parser).parse_ch 'i'
        = { { Parser.new with state := State.Content, buf := "h" } with buf := String.push "h" 'i' } :=
  ⟨rfl, by decide, c9_trailing_content_discarded.1 _ 'i' rfl (by decide)⟩

/-- C10: committing content (reading `<` in `Content` with no trailing
backslash) moves the machine to `TagClose`, where every character before
`>` is discarded and `>` pops the cursor to its parent; therefore an
opening tag written directly after text content is consumed as a closing
tag: parsing `<a>x<b>y</b></a>` creates no `b` node at all — `<b>` closes
`a`, so `y` becomes content of the root and the final tree is a root with
content `y` and the single child `a` with content `x`. -/
theorem c10_tag_after_content_closes :
    (∀ p : Parser, p.state = State.Content → str_ends_with p.buf "\\" = false →
      (p.parse_ch '<').state = State.TagClose)
    ∧ (∀ (p : Parser) (ch : Char), p.state = State.TagClose → ch ≠ '>' → p.parse_ch ch = p)
    ∧ (∀ (p : Parser) (parent : Frame) (rest : List Frame),
        p.state = State.TagClose → p.ancestors = parent :: rest →
        p.parse_ch '>' = { p with state := State.Blank, cur := parent.attach p.cur,
                                  ancestors := rest })
    ∧ (parseChars "<a>x<b>y</b></a>".data Parser.new).finish =
        Node.mk none none (some "y")
          (NodeList.cons (Node.mk (some "a") none (some "x") NodeList.nil) NodeList.nil) := by
  refine ⟨?_, ?_, ?_, by rfl⟩
  · intro p h hesc
    simp [Parser.parse_ch, h, hesc]
  · intro p ch h hch
    simp [Parser.parse_ch, h, hch]
  · intro p parent rest h hanc
    simp [Parser.parse_ch, h, hanc]

/-- C10 witness: the pop case evaluated on a parser in `TagClose` state
with one ancestor frame. -/
theorem c10_tag_after_content_closes_witness :
    (parseChars "<a>x<b".data Parser.new).state = State.TagClose
    ∧ (parseChars "<a>x<b".data Parser.new).ancestors =
        Parser.new.cur :: []
    ∧ (parseChars "<a>x<b".data Parser.new).parse_ch '>'
        = { (parseChars "<a>x<b".data Parser.new) with
              state := State.Blank,
              cur := Parser.new.cur.attach (parseChars "<a>x<b".data Parser.new).cur,
              ancestors := [] } :=
  ⟨rfl, rfl, (c10_tag_after_content_closes.2.2.1 _ Parser.new.cur [] rfl rfl)⟩

theorem tailMatch_length {cs r : List Char} (h : tailMatch cs = some r) :
    r.length + 2 ≤ cs.length := by
  have hlen : (cs.dropWhile isWs).length ≤ cs.length :=
    (List.dropWhile_sublist isWs).length_le
  unfold tailMatch at h
  split at h
  · split at h
    · split at h
      · rename_i heq _ _
        simp only [Option.some.injEq] at h
        subst h
        rw [heq] at hlen
        simp at hlen
        omega
      · exact absurd h (by simp)
    · exact absurd h (by simp)
  · exact absurd h (by simp)

theorem grabCap_length :
    ∀ (cs acc cap r : List Char), grabCap acc cs = some (cap, r) →
      r.length + 2 ≤ cs.length := by
  intro cs
  induction cs with
  | nil =>
    intro acc cap r h
    simp [grabCap] at h
  | cons c cs' ih =>
    intro acc cap r h
    cases htm : tailMatch (c :: cs') with
    | some rest =>
      simp only [grabCap, htm, Option.some.injEq, Prod.mk.injEq] at h
      obtain ⟨_, h2⟩ := h
      subst h2
      exact tailMatch_length htm
    | none =>
      simp only [grabCap, htm] at h
      by_cases hc : c = '\n'
      · simp [hc] at h
      · rw [if_neg hc] at h
        have := ih (c :: acc) cap r h
        simp only [List.length_cons]
        omega

theorem matchAfterW_length {cs cap r : List Char}
    (h : matchAfterW cs = some (cap, r)) : r.length + 2 ≤ cs.length := by
  cases cs with
  | nil => simp [matchAfterW] at h
  | cons c cs' =>
    simp only [matchAfterW] at h
    by_cases hc : c = '\n'
    · simp [hc] at h
    · rw [if_neg hc] at h
      have := grabCap_length cs' [c] cap r h
      simp only [List.length_cons]
      omega

theorem tryW_length :
    ∀ (w : Nat) (t cap r : List Char), tryW w t = some (cap, r) →
      r.length + 2 ≤ t.length := by
  intro w
  induction w with
  | zero =>
    intro t cap r h
    exact matchAfterW_length h
  | succ w ih =>
    intro t cap r h
    unfold tryW at h
    split at h
    · rename_i heq
      simp only [Option.some.injEq] at h
      subst h
      have h1 := matchAfterW_length heq
      have h2 : (t.drop (w + 1)).length ≤ t.length := by
        simp [List.length_drop]
      omega
    · exact ih t cap r h

theorem tryMatch_length {t cap r : List Char} (h : tryMatch t = some (cap, r)) :
    r.length + 2 ≤ t.length :=
  tryW_length (wsCount t) t cap r h

theorem injectAux_congr (ctx : Context) :
    ∀ (m n : Nat) (cs : List Char), cs.length < m → cs.length < n →
      injectAux ctx m cs = injectAux ctx n cs := by
  intro m
  induction m with
  | zero => intro n cs hm _; exact absurd hm (Nat.not_lt_zero _)
  | succ m ih =>
    intro n cs hm hn
    cases n with
    | zero => exact absurd hn (Nat.not_lt_zero _)
    | succ n =>
      cases cs with
      | nil => rfl
      | cons c cs' =>
        by_cases hc : c = lbrace
        · cases cs' with
          | nil => simp [injectAux, hc]
          | cons c2 t =>
            by_cases hc2 : c2 = lbrace
            · cases htm : tryMatch t with
              | some pr =>
                obtain ⟨cap, rest⟩ := pr
                have hlen := tryMatch_length htm
                simp only [injectAux, hc, hc2, if_true, htm]
                congr 1
                apply ih
                · simp at hm; omega
                · simp at hn; omega
              | none =>
                simp only [injectAux, hc, hc2, if_true, htm]
                congr 1
                apply ih
                · simp at hm ⊢; omega
                · simp at hn ⊢; omega
            · simp only [injectAux, hc, if_true, if_neg hc2]
              congr 1
              apply ih
              · simp at hm ⊢; omega
              · simp at hn ⊢; omega
        · simp only [injectAux, if_neg hc]
          congr 1
          apply ih
          · simp at hm; omega
          · simp at hn; omega

theorem injectAux_match (ctx : Context) (fuel : Nat) (t cap rest : List Char)
    (h : tryMatch t = some (cap, rest)) :
    injectAux ctx (fuel + 1) (lbrace :: lbrace :: t)
      = (ctxGet ctx (String.mk cap)).data ++ injectAux ctx fuel rest := by
  conv_lhs => rw [injectAux]
  simp [h]

theorem wsCount_ws_append {w : List Char} (hw : ∀ c ∈ w, isWs c = true) :
    ∀ (c : Char) (t : List Char), isWs c = false →
      wsCount (w ++ c :: t) = w.length := by
  induction w with
  | nil =>
    intro c t hc
    simp [wsCount, hc]
  | cons d w' ih =>
    intro c t hc
    rw [List.cons_append]
    unfold wsCount
    rw [hw d (List.mem_cons_self d w')]
    simp [ih (fun x hx => hw x (List.mem_cons_of_mem d hx)) c t hc]

theorem dropWhile_ws_append {w : List Char} (hw : ∀ c ∈ w, isWs c = true)
    (t : List Char) :
    List.dropWhile isWs (w ++ t) = List.dropWhile isWs t := by
  induction w with
  | nil => simp
  | cons d w' ih =>
    rw [List.cons_append, List.dropWhile_cons, hw d (List.mem_cons_self d w')]
    simp [ih (fun x hx => hw x (List.mem_cons_of_mem d hx))]

theorem tailMatch_ws_close {w2 rest : List Char} (hw : ∀ c ∈ w2, isWs c = true) :
    tailMatch (w2 ++ rbrace :: rbrace :: rest) = some rest := by
  unfold tailMatch
  rw [dropWhile_ws_append hw, List.dropWhile_cons]
  simp [(by decide : isWs rbrace = false)]

theorem tailMatch_cons_ws {c : Char} (h : isWs c = true) (t : List Char) :
    tailMatch (c :: t) = tailMatch t := by
  unfold tailMatch
  rw [List.dropWhile_cons, h]
  simp

theorem tailMatch_none_suffix :
    ∀ (s : List Char), s ≠ [] → isWs (s.getLastD 'x') = false →
      (∀ c ∈ s, c ≠ rbrace) → ∀ tail, tailMatch (s ++ tail) = none := by
  intro s
  induction s with
  | nil => intro h; exact absurd rfl h
  | cons c s' ih =>
    intro _ hlast hrb tail
    cases s' with
    | nil =>
      have hc : isWs c = false := by simpa using hlast
      have hcrb : c ≠ rbrace := hrb c (List.mem_cons_self c [])
      unfold tailMatch
      rw [List.cons_append, List.nil_append, List.dropWhile_cons, hc]
      simp only [Bool.false_eq_true, if_false]
      cases tail with
      | nil => rfl
      | cons d t' => simp [hcrb]
    | cons d s'' =>
      by_cases hcw : isWs c = true
      · rw [List.cons_append, tailMatch_cons_ws hcw]
        refine ih (by simp) ?_ (fun x hx => hrb x (List.mem_cons_of_mem c hx)) tail
        simpa [List.getLastD_eq_getLast?, List.getLast?_cons_cons] using hlast
      · have hc : isWs c = false := by simpa using hcw
        have hcrb : c ≠ rbrace := hrb c (List.mem_cons_self _ _)
        unfold tailMatch
        rw [List.cons_append, List.dropWhile_cons, hc]
        simp only [Bool.false_eq_true, if_false]
        simp [hcrb]

theorem grabCap_ws_close {w2 rest : List Char} (hw : ∀ c ∈ w2, isWs c = true)
    (acc : List Char) :
    grabCap acc (w2 ++ rbrace :: rbrace :: rest) = some (acc.reverse, rest) := by
  cases hx : w2 ++ rbrace :: rbrace :: rest with
  | nil => simp at hx
  | cons c cs' =>
    have htm : tailMatch (c :: cs') = some rest := by
      rw [← hx]
      exact tailMatch_ws_close hw
    rw [hx] at *
    simp [grabCap, htm]

theorem grabCap_gen {w2 rest : List Char} (hw : ∀ c ∈ w2, isWs c = true) :
    ∀ (nm2 acc : List Char), nm2 ≠ [] →
      isWs (nm2.getLastD 'x') = false →
      (∀ c ∈ nm2, c ≠ rbrace ∧ c ≠ '\n') →
      grabCap acc (nm2 ++ (w2 ++ rbrace :: rbrace :: rest)) =
        some (acc.reverse ++ nm2, rest) := by
  intro nm2
  induction nm2 with
  | nil => intro acc h; exact absurd rfl h
  | cons c nm2' ih =>
    intro acc _ hlast hcond
    obtain ⟨hcrb, hcnl⟩ := hcond c (List.mem_cons_self _ _)
    have htm : tailMatch (c :: (nm2' ++ (w2 ++ rbrace :: rbrace :: rest))) = none := by
      have := tailMatch_none_suffix (c :: nm2') (by simp) hlast
        (fun x hx => (hcond x hx).1) (w2 ++ rbrace :: rbrace :: rest)
      rw [List.cons_append] at this
      exact this
    rw [List.cons_append]
    cases nm2' with
    | nil =>
      rw [List.nil_append] at htm ⊢
      simp only [grabCap, htm, if_neg hcnl]
      rw [grabCap_ws_close hw (c :: acc)]
      simp
    | cons d nm2'' =>
      rw [grabCap]
      simp only [htm, if_neg hcnl]
      refine (ih (c :: acc) (by simp) ?_
        (fun x hx => hcond x (List.mem_cons_of_mem c hx))).trans ?_
      · simpa [List.getLastD_eq_getLast?, List.getLast?_cons_cons] using hlast
      · simp

theorem tryMatch_gen (w1 nm w2 rest : List Char)
    (hw1 : ∀ c ∈ w1, isWs c = true) (hw2 : ∀ c ∈ w2, isWs c = true)
    (hne : nm ≠ []) (hhead : isWs (nm.headD 'x') = false)
    (hlast : isWs (nm.getLastD 'x') = false)
    (hcond : ∀ c ∈ nm, c ≠ rbrace ∧ c ≠ '\n') :
    tryMatch (w1 ++ (nm ++ (w2 ++ rbrace :: rbrace :: rest))) = some (nm, rest) := by
  obtain ⟨n0, nm'', rfl⟩ : ∃ n0 nm'', nm = n0 :: nm'' := by
    cases nm with
    | nil => exact absurd rfl hne
    | cons a b => exact ⟨a, b, rfl⟩
  have hh0 : isWs n0 = false := by simpa using hhead
  have hn0nl : n0 ≠ '\n' := (hcond n0 (List.mem_cons_self _ _)).2
  have hmw : matchAfterW ((n0 :: nm'') ++ (w2 ++ rbrace :: rbrace :: rest))
      = some (n0 :: nm'', rest) := by
    rw [List.cons_append]
    simp only [matchAfterW, if_neg hn0nl]
    cases nm'' with
    | nil =>
      rw [List.nil_append, grabCap_ws_close hw2 [n0]]
      simp
    | cons d nm3 =>
      rw [grabCap_gen hw2 (d :: nm3) [n0] (by simp) ?_
        (fun x hx => hcond x (List.mem_cons_of_mem n0 hx))]
      · simp
      · simpa [List.getLastD_eq_getLast?, List.getLast?_cons_cons] using hlast
  have hwc : wsCount (w1 ++ ((n0 :: nm'') ++ (w2 ++ rbrace :: rbrace :: rest)))
      = w1.length := by
    rw [List.cons_append]
    exact wsCount_ws_append hw1 n0 _ hh0
  unfold tryMatch
  rw [hwc]
  cases w1 with
  | nil =>
    simp only [List.length_nil, List.nil_append]
    unfold tryW
    exact hmw
  | cons a w1' =>
    simp only [List.length_cons]
    unfold tryW
    have hdrop : ((a :: w1') ++ ((n0 :: nm'') ++ (w2 ++ rbrace :: rbrace :: rest))).drop
        (w1'.length + 1) = (n0 :: nm'') ++ (w2 ++ rbrace :: rbrace :: rest) := by
      have : w1'.length + 1 = (a :: w1').length := by simp
      rw [this, List.drop_left]
    rw [hdrop, hmw]

theorem noPhScan_cons_cons {c d : Char} {rest : List Char}
    (h : NoPhScan (c :: d :: rest) = true) :
    ¬(c = lbrace ∧ d = lbrace) ∧ NoPhScan (d :: rest) = true := by
  by_cases hp : c = lbrace ∧ d = lbrace
  · rw [NoPhScan, if_pos hp] at h
    exact absurd h (by simp)
  · rw [NoPhScan, if_neg hp] at h
    exact ⟨hp, h⟩

theorem injectAux_noph (ctx : Context) :
    ∀ (fuel : Nat) (s : List Char), NoPhScan s = true → s.length < fuel →
      injectAux ctx fuel s = s := by
  intro fuel
  induction fuel with
  | zero => intro s _ hl; exact absurd hl (Nat.not_lt_zero _)
  | succ f ih =>
    intro s hs hl
    cases s with
    | nil => rfl
    | cons c s' =>
      cases s' with
      | nil =>
        by_cases hc : c = lbrace
        · simp [injectAux, hc]
        · simp only [injectAux, if_neg hc]
          cases f with
          | zero => simp at hl
          | succ f' => simp [injectAux]
      | cons d s'' =>
        obtain ⟨hp, htail⟩ := noPhScan_cons_cons hs
        by_cases hc : c = lbrace
        · have hd : d ≠ lbrace := fun hd => hp ⟨hc, hd⟩
          simp only [injectAux, hc, if_true, if_neg hd]
          rw [ih (d :: s'') htail (by simp at hl ⊢; omega)]
        · simp only [injectAux, if_neg hc]
          rw [ih (d :: s'') htail (by simp at hl ⊢; omega)]

theorem injectAux_pass (ctx : Context) :
    ∀ (pre tl : List Char) (fuel : Nat),
      NoPhScan (pre ++ [lbrace]) = true → (pre ++ tl).length < fuel →
      injectAux ctx fuel (pre ++ tl) = pre ++ injectAux ctx (tl.length + 1) tl := by
  intro pre
  induction pre with
  | nil =>
    intro tl fuel _ hlen
    simp only [List.nil_append]
    apply injectAux_congr
    · simpa using hlen
    · omega
  | cons c pre' ih =>
    intro tl fuel h hlen
    rw [List.cons_append] at h
    cases fuel with
    | zero => exact absurd hlen (Nat.not_lt_zero _)
    | succ f =>
      by_cases hc : c = lbrace
      · cases hp : pre' with
        | nil =>
          subst hp
          rw [List.nil_append] at h
          obtain ⟨hpair, _⟩ := noPhScan_cons_cons h
          exact absurd ⟨hc, rfl⟩ hpair
        | cons d pre'' =>
          subst hp
          have hne : NoPhScan ((d :: pre'') ++ [lbrace]) = true := by
            rw [List.cons_append] at h
            exact (noPhScan_cons_cons h).2
          have hd : d ≠ lbrace := by
            rw [List.cons_append] at h
            intro hd
            exact (noPhScan_cons_cons h).1 ⟨hc, hd⟩
          simp only [injectAux, hc, if_true, ite_true, List.append_eq, List.cons_append, if_neg hd]
          congr 1
          exact ih tl f hne (by simp at hlen ⊢; omega)
      · simp only [List.cons_append, injectAux, if_neg hc]
        congr 1
        apply ih
        · cases hp : pre' with
          | nil => simp [NoPhScan]
          | cons d pre'' =>
            subst hp
            rw [List.cons_append] at h ⊢
            exact (noPhScan_cons_cons h).2
        · simp at hlen ⊢
          omega

/-- C3: `inject_context` replaces each `\x7b\x7b name \x7d\x7d` occurrence,
scanned left to right, with the context value of the name trimmed of
surrounding whitespace — `CTX MISS` when the key is absent (lookup is
case-sensitive string equality) — and passes text outside placeholders
through unchanged.  Formally: for any prefix in which no placeholder can
start (no adjacent braces, stray single braces allowed), any padding
runs of `\s` whitespace on either side of the name (possibly empty, so
`\x7b\x7bname\x7d\x7d` and multi-space forms are both covered), and any
name with non-whitespace first and last characters, free of `\x7d` and
of newline (interior spaces allowed, as the regex captures them), the
substitution rewrites the leftmost placeholder to the value looked up
under the trimmed name and continues on the remainder; `ctxGet` yields
the value on a present key and the literal `CTX MISS` on an absent one;
and text where no placeholder can start is returned unchanged. -/
theorem c3_inject_context_spec :
    ∀ (ctx : Context) (pre w1 nm w2 rest : List Char),
      NoPhScan (pre ++ [lbrace]) = true →
      (∀ c ∈ w1, isWs c = true) →
      (∀ c ∈ w2, isWs c = true) →
      nm ≠ [] →
      isWs (nm.headD 'x') = false →
      isWs (nm.getLastD 'x') = false →
      (∀ c ∈ nm, c ≠ rbrace ∧ c ≠ '\n') →
      inject_context
          (String.mk (pre ++ lbrace :: lbrace ::
            (w1 ++ (nm ++ (w2 ++ rbrace :: rbrace :: rest))))) ctx
        = String.mk (pre ++ (ctxGet ctx (String.mk nm)).data
            ++ (inject_context (String.mk rest) ctx).data)
      ∧ (List.lookup (String.mk nm) ctx = none → ctxGet ctx (String.mk nm) = "CTX MISS")
      ∧ (∀ v, List.lookup (String.mk nm) ctx = some v → ctxGet ctx (String.mk nm) = v)
      ∧ (∀ s : List Char, NoPhScan s = true →
          inject_context (String.mk s) ctx = String.mk s) := by
  intro ctx pre w1 nm w2 rest hpre hw1 hw2 hne hhead hlast hcond
  refine ⟨?_, ?_, ?_, ?_⟩
  · show String.mk (injectAux ctx
        ((pre ++ lbrace :: lbrace :: (w1 ++ (nm ++ (w2 ++ rbrace :: rbrace :: rest)))).length + 1)
        (pre ++ lbrace :: lbrace :: (w1 ++ (nm ++ (w2 ++ rbrace :: rbrace :: rest))))) = _
    rw [injectAux_pass ctx pre _ _ hpre (by omega)]
    have hstep := injectAux_match ctx
      (lbrace :: lbrace :: (w1 ++ (nm ++ (w2 ++ rbrace :: rbrace :: rest)))).length
      (w1 ++ (nm ++ (w2 ++ rbrace :: rbrace :: rest))) nm rest
      (tryMatch_gen w1 nm w2 rest hw1 hw2 hne hhead hlast hcond)
    rw [hstep]
    have hcongr : injectAux ctx
        (lbrace :: lbrace :: (w1 ++ (nm ++ (w2 ++ rbrace :: rbrace :: rest)))).length rest
        = injectAux ctx (rest.length + 1) rest := by
      apply injectAux_congr
      · simp
        omega
      · omega
    rw [hcongr]
    show String.mk (pre ++ ((ctxGet ctx (String.mk nm)).data
        ++ injectAux ctx (rest.length + 1) rest)) = _
    rw [← List.append_assoc]
    rfl
  · intro h
    simp [ctxGet, h]
  · intro v h
    simp [ctxGet, h]
  · intro s hs
    show String.mk (injectAux ctx (s.length + 1) s) = String.mk s
    rw [injectAux_noph ctx (s.length + 1) s hs (by omega)]

/-- C3 witness: the substitution law evaluated on
`a\x7bb\x7b\x7bk u \u00a0\x7d\x7dz` (stray `\x7b` in the prefix, zero-width
left padding, interior space in the name, space-then-NBSP right padding)
with context `[("k u", "V")]`. -/
theorem c3_inject_context_spec_witness :
    NoPhScan ("a\x7bb".data ++ [lbrace]) = true
    ∧ (∀ c ∈ ([' ', '\xa0'] : List Char), isWs c = true)
    ∧ "k u".data ≠ []
    ∧ isWs ("k u".data.headD 'x') = false
    ∧ isWs ("k u".data.getLastD 'x') = false
    ∧ (∀ c ∈ "k u".data, c ≠ rbrace ∧ c ≠ '\n')
    ∧ inject_context
        (String.mk ("a\x7bb".data ++ lbrace :: lbrace ::
          ([] ++ ("k u".data ++ ([' ', '\xa0'] ++ rbrace :: rbrace :: "z".data)))))
        [("k u", "V")]
      = String.mk ("a\x7bb".data ++ (ctxGet [("k u", "V")] (String.mk "k u".data)).data
          ++ (inject_context (String.mk "z".data) [("k u", "V")]).data) :=
  ⟨by decide, by decide, by decide, by decide, by decide, by decide,
    (c3_inject_context_spec [("k u", "V")] "a\x7bb".data [] "k u".data [' ', '\xa0'] "z".data
      (by decide) (by decide) (by decide) (by decide) (by decide) (by decide)
      (by decide)).1⟩

theorem parseChars_cons (c : Char) (cs : List Char) (p : Parser) :
    parseChars (c :: cs) p = parseChars cs (p.parse_ch c) := rfl

theorem parseChars_append (a b : List Char) (p : Parser) :
    parseChars (a ++ b) p = parseChars b (parseChars a p) :=
  List.foldl_append _ _ _ _

theorem alnum_facts {c : Char} (h : is_alphanumeric c = true) :
    c ≠ ' ' ∧ c ≠ '>' ∧ c ≠ '/' ∧ c ≠ '!' := by
  refine ⟨?_, ?_, ?_, ?_⟩ <;> (intro e; subst e; exact absurd h (by decide))

theorem content_ne_lt {c : Char} (h : is_content c = true) : c ≠ '<' := by
  intro e; subst e; exact absurd h (by decide)

theorem parseChars_tagClose_skip :
    ∀ (cs : List Char) (p : Parser), p.state = State.TagClose →
      (∀ c ∈ cs, c ≠ '>') → parseChars cs p = p := by
  intro cs
  induction cs with
  | nil => intro p _ _; rfl
  | cons c cs' ih =>
    intro p h hc
    rw [parseChars_cons]
    have hstep : p.parse_ch c = p := by
      simp [Parser.parse_ch, h, hc c (List.mem_cons_self c cs')]
    rw [hstep]
    exact ih p h (fun x hx => hc x (List.mem_cons_of_mem c hx))

theorem parseChars_tagOpen_acc :
    ∀ (cs : List Char) (p : Parser), p.state = State.TagOpen →
      (∀ c ∈ cs, is_alphanumeric c = true) →
      parseChars cs p = { p with buf := String.mk (p.buf.data ++ cs) } := by
  intro cs
  induction cs with
  | nil => intro p _ _; simp; rfl
  | cons c cs' ih =>
    intro p h hc
    obtain ⟨hsp, hgt, _, _⟩ := alnum_facts (hc c (List.mem_cons_self c cs'))
    rw [parseChars_cons]
    have hstep : p.parse_ch c = { p with buf := p.buf.push c } := by
      simp [Parser.parse_ch, h, if_neg hsp, if_neg hgt, hc c (List.mem_cons_self c cs')]
    rw [hstep]
    rw [ih { p with buf := p.buf.push c } h (fun x hx => hc x (List.mem_cons_of_mem c hx))]
    simp [String.push]

theorem parseChars_attr_acc :
    ∀ (cs : List Char) (p : Parser), p.state = State.Attr →
      (∀ c ∈ cs, c ≠ '>') →
      parseChars cs p = { p with attr_buf := String.mk (p.attr_buf.data ++ cs) } := by
  intro cs
  induction cs with
  | nil => intro p _ _; simp; rfl
  | cons c cs' ih =>
    intro p h hc
    rw [parseChars_cons]
    have hstep : p.parse_ch c = { p with attr_buf := p.attr_buf.push c } := by
      simp [Parser.parse_ch, h, if_neg (hc c (List.mem_cons_self c cs'))]
    rw [hstep]
    rw [ih { p with attr_buf := p.attr_buf.push c } h (fun x hx => hc x (List.mem_cons_of_mem c hx))]
    simp [String.push]

theorem parseChars_content_acc :
    ∀ (cs : List Char) (p : Parser), p.state = State.Content →
      (∀ c ∈ cs, c ≠ '<') →
      parseChars cs p = { p with buf := String.mk (p.buf.data ++ cs) } := by
  intro cs
  induction cs with
  | nil => intro p _ _; simp; rfl
  | cons c cs' ih =>
    intro p h hc
    rw [parseChars_cons]
    have hstep : p.parse_ch c = { p with buf := p.buf.push c } := by
      simp [Parser.parse_ch, h, if_neg (hc c (List.mem_cons_self c cs'))]
    rw [hstep]
    rw [ih { p with buf := p.buf.push c } h (fun x hx => hc x (List.mem_cons_of_mem c hx))]
    simp [String.push]

theorem string_mk_ne_empty {a : List Char} (h : a ≠ []) : String.mk a ≠ "" := by
  intro e
  apply h
  have := congrArg String.data e
  simpa using this

theorem parseChars_open (tag : List Char) (attrs : Option (List Char)) (p : Parser)
    (hstate : p.state = State.Blank) (hab : p.attr_buf = "")
    (htag : TagOk tag) (hattrs : AttrsOk attrs) :
    parseChars (openChars tag attrs) p =
      { p with state := State.Blank, buf := "", attr_buf := "",
               ancestors := p.cur :: p.ancestors,
               cur := { tag := some (String.mk tag), attrs := attrsToOpt attrs,
                        content := none, children := NodeList.nil } } := by
  obtain ⟨hne, hchars⟩ := htag
  obtain ⟨t0, ts, rfl⟩ : ∃ t0 ts, tag = t0 :: ts := by
    cases tag with
    | nil => exact absurd rfl hne
    | cons a b => exact ⟨a, b, rfl⟩
  obtain ⟨h0sp, h0gt, h0sl, h0bang⟩ := alnum_facts (hchars t0 (List.mem_cons_self t0 ts))
  rw [openChars]
  rw [parseChars_cons]
  have h1 : p.parse_ch '<' = { p with state := State.Tag, buf := "" } := by
    simp [Parser.parse_ch, hstate]
  rw [h1, List.cons_append, List.cons_append, parseChars_cons]
  have h2 : ({ p with state := State.Tag, buf := "" } : Parser).parse_ch t0
      = { p with state := State.TagOpen, buf := String.mk [t0] } := by
    simp [Parser.parse_ch, if_neg h0sl, if_neg h0bang,
      hchars t0 (List.mem_cons_self t0 ts), String.push]
  rw [h2, List.append_assoc, parseChars_append]
  rw [parseChars_tagOpen_acc ts { p with state := State.TagOpen, buf := String.mk [t0] } rfl
    (fun x hx => hchars x (List.mem_cons_of_mem t0 hx))]
  cases attrs with
  | none =>
    simp only [attrPart, List.nil_append]
    rw [parseChars_cons]
    show parseChars [] _ = _
    simp only [parseChars, List.foldl_nil]
    simp [Parser.parse_ch, Parser.add_child_to_current_node, Parser.setBlankClear,
      hab, attrsToOpt]
  | some a =>
    obtain ⟨hane, hachars⟩ := hattrs
    simp only [attrPart]
    rw [List.cons_append, parseChars_cons]
    have h3 : ({ p with state := State.TagOpen, buf := String.mk ([t0] ++ ts) } : Parser).parse_ch ' '
        = { p with state := State.Attr, buf := String.mk ([t0] ++ ts) } := by
      simp [Parser.parse_ch]
    rw [h3, parseChars_append]
    rw [parseChars_attr_acc a { p with state := State.Attr, buf := String.mk ([t0] ++ ts) } rfl hachars]
    rw [parseChars_cons]
    show parseChars [] _ = _
    simp only [parseChars, List.foldl_nil]
    have hne2 : String.mk (({ p with state := State.Attr, buf := String.mk ([t0] ++ ts) } : Parser).attr_buf.data ++ a) ≠ "" := by
      show String.mk (p.attr_buf.data ++ a) ≠ ""
      rw [hab]
      exact string_mk_ne_empty (by simpa using hane)
    simp [Parser.parse_ch, Parser.add_child_to_current_node, Parser.setBlankClear,
      hne2, attrsToOpt, hab]
    exact string_mk_ne_empty hane

theorem parseChars_text (txt : List Char) (p : Parser)
    (hstate : p.state = State.Blank) (hbuf : p.buf = "") (ht : TxtOk txt) :
    parseChars txt p = { p with state := State.Content, buf := String.mk txt } := by
  obtain ⟨hne, hhead, hlt, _⟩ := ht
  obtain ⟨t0, ts, rfl⟩ : ∃ t0 ts, txt = t0 :: ts := by
    cases txt with
    | nil => exact absurd rfl hne
    | cons a b => exact ⟨a, b, rfl⟩
  have hhead0 : is_content t0 = true := by simpa using hhead
  rw [parseChars_cons]
  have h1 : p.parse_ch t0 = { p with state := State.Content, buf := String.mk [t0] } := by
    simp [Parser.parse_ch, hstate, if_neg (content_ne_lt hhead0), hhead0, hbuf, String.push]
  rw [h1]
  rw [parseChars_content_acc ts { p with state := State.Content, buf := String.mk [t0] } rfl
    (fun x hx => hlt x (List.mem_cons_of_mem t0 hx))]
  simp

theorem ends_with_backslash_false {l : List Char} (h : l.getLastD 'x' ≠ '\\') :
    str_ends_with (String.mk l) "\\" = false := by
  cases hb : str_ends_with (String.mk l) "\\" with
  | false => rfl
  | true =>
    exfalso
    unfold str_ends_with at hb
    have hdata : ("\\" : String).data = ['\\'] := rfl
    rw [hdata] at hb
    have hsuf : ['\\'] <:+ l := List.isSuffixOf_iff_suffix.mp hb
    obtain ⟨t, ht⟩ := hsuf
    apply h
    rw [← ht]
    simp [List.getLastD_eq_getLast?, List.getLast?_concat]

theorem tagClose_pop (p : Parser) (parent : Frame) (rest : List Frame)
    (hstate : p.state = State.TagClose) (hanc : p.ancestors = parent :: rest) :
    p.parse_ch '>' = { p with state := State.Blank, cur := parent.attach p.cur,
                              ancestors := rest } := by
  simp [Parser.parse_ch, hstate, hanc]

theorem parseChars_closer_prefix_blank (nm : List Char) (p : Parser)
    (hstate : p.state = State.Blank) (hnm : NmOk nm) :
    parseChars ('<' :: '/' :: nm) p = { p with state := State.TagClose, buf := "" } := by
  rw [parseChars_cons]
  have h1 : p.parse_ch '<' = { p with state := State.Tag, buf := "" } := by
    simp [Parser.parse_ch, hstate]
  rw [h1, parseChars_cons]
  have h2 : ({ p with state := State.Tag, buf := "" } : Parser).parse_ch '/'
      = { p with state := State.TagClose, buf := "" } := by
    simp [Parser.parse_ch]
  rw [h2]
  exact parseChars_tagClose_skip nm _ rfl hnm

theorem parseChars_closer_prefix_content (nm : List Char) (p : Parser)
    (hstate : p.state = State.Content) (hesc : str_ends_with p.buf "\\" = false)
    (hnm : NmOk nm) :
    parseChars ('<' :: '/' :: nm) p =
      { p with state := State.TagClose, buf := "",
               cur := { p.cur with content := some p.buf } } := by
  rw [parseChars_cons]
  have h1 : p.parse_ch '<'
      = { p with
          cur := { p.cur with content := some p.buf }, buf := "", state := State.TagClose } := by
    simp [Parser.parse_ch, hstate, hesc]
  rw [h1, parseChars_cons]
  have h2 : ({ p with
        cur := { p.cur with content := some p.buf }, buf := "", state := State.TagClose }
        : Parser).parse_ch '/'
      = { p with
          cur := { p.cur with content := some p.buf }, buf := "", state := State.TagClose } := by
    simp [Parser.parse_ch]
  rw [h2]
  exact parseChars_tagClose_skip nm _ rfl hnm

theorem parseChars_singleton (c : Char) (p : Parser) :
    parseChars [c] p = p.parse_ch c := rfl

theorem closeChars_eq (nm : List Char) :
    closeChars nm = ('<' :: '/' :: nm) ++ ['>'] := by
  simp [closeChars]

theorem parseChars_closer_blank (nm : List Char) (p : Parser)
    (parent : Frame) (rest : List Frame)
    (hstate : p.state = State.Blank) (hnm : NmOk nm)
    (hanc : p.ancestors = parent :: rest) :
    parseChars (closeChars nm) p =
      { p with state := State.Blank, buf := "", cur := parent.attach p.cur,
               ancestors := rest } := by
  rw [closeChars_eq, parseChars_append,
    parseChars_closer_prefix_blank nm p hstate hnm, parseChars_singleton]
  exact tagClose_pop _ parent rest rfl hanc

theorem parseChars_closer_content (nm : List Char) (p : Parser)
    (parent : Frame) (rest : List Frame)
    (hstate : p.state = State.Content) (hesc : str_ends_with p.buf "\\" = false)
    (hnm : NmOk nm) (hanc : p.ancestors = parent :: rest) :
    parseChars (closeChars nm) p =
      { p with state := State.Blank, buf := "",
               cur := parent.attach { p.cur with content := some p.buf },
               ancestors := rest } := by
  rw [closeChars_eq, parseChars_append,
    parseChars_closer_prefix_content nm p hstate hesc hnm, parseChars_singleton]
  exact tagClose_pop _ parent rest rfl hanc

theorem parseChars_wf {cs : List Char} (h : Wf cs) :
    ∀ p : Parser, p.state = State.Blank → p.attr_buf = "" →
      (parseChars cs p).state = State.Blank
      ∧ (parseChars cs p).attr_buf = ""
      ∧ (parseChars cs p).ancestors.length = p.ancestors.length := by
  induction h with
  | nilW => intro p h1 h2; exact ⟨h1, h2, rfl⟩
  | textElem tag attrs nm txt rest htag hattrs hnm htxt hrest ih =>
    intro p h1 h2
    rw [parseChars_append, parseChars_append, parseChars_append]
    obtain ⟨p1, hp1s, hp1b, hp1ab, hp1anc, hp1eq⟩ :
        ∃ p1 : Parser, p1.state = State.Blank ∧ p1.buf = "" ∧ p1.attr_buf = ""
          ∧ p1.ancestors = p.cur :: p.ancestors
          ∧ parseChars (openChars tag attrs) p = p1 :=
      ⟨_, rfl, rfl, rfl, rfl, parseChars_open tag attrs p h1 h2 htag hattrs⟩
    rw [hp1eq]
    rw [parseChars_text txt p1 hp1s hp1b htxt]
    rw [parseChars_closer_content nm
      { p1 with state := State.Content, buf := String.mk txt } p.cur p.ancestors rfl
      (ends_with_backslash_false htxt.2.2.2) hnm hp1anc]
    exact ih _ rfl hp1ab
  | nodeElem tag attrs nm inner rest htag hattrs hnm hinner hrest ih_inner ih_rest =>
    intro p h1 h2
    rw [parseChars_append, parseChars_append, parseChars_append]
    obtain ⟨p1, hp1s, hp1b, hp1ab, hp1anc, hp1eq⟩ :
        ∃ p1 : Parser, p1.state = State.Blank ∧ p1.buf = "" ∧ p1.attr_buf = ""
          ∧ p1.ancestors = p.cur :: p.ancestors
          ∧ parseChars (openChars tag attrs) p = p1 :=
      ⟨_, rfl, rfl, rfl, rfl, parseChars_open tag attrs p h1 h2 htag hattrs⟩
    rw [hp1eq]
    obtain ⟨hqs, hqa, hql⟩ := ih_inner p1 hp1s hp1ab
    rw [hp1anc] at hql
    obtain ⟨f, rest', hfr⟩ :
        ∃ f rest', (parseChars inner p1).ancestors = f :: rest' := by
      cases hq : (parseChars inner p1).ancestors with
      | nil => rw [hq] at hql; simp at hql
      | cons a b => exact ⟨a, b, rfl⟩
    rw [parseChars_closer_blank nm (parseChars inner p1) f rest' hqs hnm hfr]
    have htriple := ih_rest
      ({ parseChars inner p1 with
          state := State.Blank, buf := "",
          cur := f.attach (parseChars inner p1).cur, ancestors := rest' } : Parser) rfl hqa
    obtain ⟨ha, hb, hc⟩ := htriple
    refine ⟨ha, hb, ?_⟩
    rw [hc]
    rw [hfr] at hql
    simp only [List.length_cons] at hql
    simpa using hql

/-- C7 (counterexample): the claim fails as stated.  In
`<a>x<b>y</b></a>` every opening tag has a matching closing tag, yet the
cursor depth just after `<a>`'s `>` is 1 while its depth when the
matching closer `</a>`'s `>` is processed (the parse of everything up to
but excluding that final `>`) is 0: the content commit after `x` put the
machine in `TagClose`, so `<b>` was consumed as a closing tag and the
cursor left `a` early. -/
theorem c7_counterexample :
    ¬ ((parseChars "<a>".data Parser.new).depth
        = (parseChars "<a>x<b>y</b></a".data Parser.new).depth) := by
  decide

/-- C7 (amended): for inputs generated by the template grammar — every
opening tag matched by a closing group, and a text-bearing element
closed immediately after its text, with tag names alphanumeric,
attribute text free of `>`, text free of `<` and not ending in a
backslash — the cursor depth just after an element's opening `>` equals
its depth when the matching closing tag's `>` is processed (i.e. after
the whole body and the `</name` prefix), the closing names being
entirely unvalidated; processing that `>` returns the cursor to its
depth from before the element. -/
theorem c7_depth_balanced :
    ∀ (tag : List Char) (attrs : Option (List Char)) (nm body : List Char) (p : Parser),
      TagOk tag → AttrsOk attrs → NmOk nm → (TxtOk body ∨ Wf body) →
      p.state = State.Blank → p.attr_buf = "" →
      (parseChars (openChars tag attrs) p).depth = p.depth + 1
      ∧ (parseChars (openChars tag attrs ++ body) p).depth = p.depth + 1
      ∧ (parseChars (openChars tag attrs ++ body ++ ('<' :: '/' :: nm)) p).depth = p.depth + 1
      ∧ (parseChars (openChars tag attrs ++ body ++ closeChars nm) p).depth = p.depth := by
  intro tag attrs nm body p htag hattrs hnm hbody h1 h2
  obtain ⟨p1, hp1s, hp1b, hp1ab, hp1anc, hp1eq⟩ :
      ∃ p1 : Parser, p1.state = State.Blank ∧ p1.buf = "" ∧ p1.attr_buf = ""
        ∧ p1.ancestors = p.cur :: p.ancestors
        ∧ parseChars (openChars tag attrs) p = p1 :=
    ⟨_, rfl, rfl, rfl, rfl, parseChars_open tag attrs p h1 h2 htag hattrs⟩
  refine ⟨?_, ?_, ?_, ?_⟩
  · rw [hp1eq]
    simp [Parser.depth, hp1anc]
  · rw [parseChars_append, hp1eq]
    cases hbody with
    | inl htxt =>
      rw [parseChars_text body p1 hp1s hp1b htxt]
      simp [Parser.depth, hp1anc]
    | inr hwf =>
      have := (parseChars_wf hwf p1 hp1s hp1ab).2.2
      simp [Parser.depth, this, hp1anc]
  · rw [parseChars_append, parseChars_append, hp1eq]
    cases hbody with
    | inl htxt =>
      rw [parseChars_text body p1 hp1s hp1b htxt]
      rw [parseChars_closer_prefix_content nm
        { p1 with state := State.Content, buf := String.mk body } rfl
        (ends_with_backslash_false htxt.2.2.2) hnm]
      simp [Parser.depth, hp1anc]
    | inr hwf =>
      obtain ⟨hqs, hqa, hql⟩ := parseChars_wf hwf p1 hp1s hp1ab
      rw [parseChars_closer_prefix_blank nm (parseChars body p1) hqs hnm]
      simp [Parser.depth, hql, hp1anc]
  · rw [parseChars_append, parseChars_append, hp1eq]
    cases hbody with
    | inl htxt =>
      rw [parseChars_text body p1 hp1s hp1b htxt]
      rw [parseChars_closer_content nm
        { p1 with state := State.Content, buf := String.mk body } p.cur p.ancestors rfl
        (ends_with_backslash_false htxt.2.2.2) hnm hp1anc]
      simp [Parser.depth]
    | inr hwf =>
      obtain ⟨hqs, hqa, hql⟩ := parseChars_wf hwf p1 hp1s hp1ab
      rw [hp1anc] at hql
      obtain ⟨f, rest', hfr⟩ :
          ∃ f rest', (parseChars body p1).ancestors = f :: rest' := by
        cases hq : (parseChars body p1).ancestors with
        | nil => rw [hq] at hql; simp at hql
        | cons a b => exact ⟨a, b, rfl⟩
      rw [parseChars_closer_blank nm (parseChars body p1) f rest' hqs hnm hfr]
      rw [hfr] at hql
      simp only [List.length_cons] at hql
      simp [Parser.depth]
      omega

/-- C7 witness: the depth law evaluated on the element `<a>hi</b>` (text
body, mismatched closing name) fed to a fresh parser. -/
theorem c7_depth_balanced_witness :
    TagOk "a".data ∧ NmOk "b".data ∧ TxtOk "hi".data
    ∧ ((parseChars (openChars "a".data none) Parser.new).depth = Parser.new.depth + 1
       ∧ (parseChars (openChars "a".data none ++ "hi".data) Parser.new).depth
           = Parser.new.depth + 1
       ∧ (parseChars (openChars "a".data none ++ "hi".data ++ ('<' :: '/' :: "b".data))
           Parser.new).depth = Parser.new.depth + 1
       ∧ (parseChars (openChars "a".data none ++ "hi".data ++ closeChars "b".data)
           Parser.new).depth = Parser.new.depth) :=
  ⟨⟨by decide, by decide⟩, by unfold NmOk; decide,
    ⟨by decide, by decide, by decide, by decide⟩,
    c7_depth_balanced "a".data none "b".data "hi".data Parser.new ⟨by decide, by decide⟩
      (by constructor) (by unfold NmOk; decide)
      (Or.inl ⟨by decide, by decide, by decide, by decide⟩)
      rfl rfl⟩
